import Mathlib

/-!
Verification of the note-state and audio-voice management engine of DJKeyTool
(`src/script.js`).

The engine state is embedded shallowly:

* frequencies are exact rationals (the source's float literals, e.g. `261.63`,
  become `26163/100`);
* the JS object `activeOscillators` (string-keyed, insertion ordered, keys are
  non-integer numeric strings and therefore kept in insertion order) becomes a
  `List Voice` whose entries carry their key in the `actual` field, new entries
  appended at the end;
* the arrays `heldNotes` and the variable `lastPlayedNote` become a
  `List HeldNote` and an `Option HeldNote`;
* the scheduled amplitude ramp of each voice's gain node is tracked by the
  `gainTarget` field: `playNote`/`playNoteFromWheel` schedule a ramp to
  `OSC_GAIN`; a voice removed by `stopNote` starts its fade-out on an orphaned
  node and is no longer part of the registry.

DOM highlighting, the Web-Audio plumbing and settings persistence are
presentation glue outside the modelled core.
-/

namespace DJKeyTool

/-- Chord type carried by wheel-triggered voices and wheel ledger entries. -/
inductive ChordType where
  | major
  | minor
deriving DecidableEq

/-- One entry of the `heldNotes` array of `script.js`: `playNote` pushes the
plain note-name string, `playNoteFromWheel` pushes the tagged object holding
the note, the wheel source marker and the clicked chord type. -/
inductive HeldNote where
  | plain (note : String)
  | wheel (note : String) (chordType : ChordType)
deriving DecidableEq

/-- The pitch-class name of a ledger entry, as computed by the source's
`typeof note === 'string' ? note : note.note` accessor. -/
def HeldNote.name : HeldNote → String
  | .plain n => n
  | .wheel n _ => n

/-- One entry of `activeOscillators`.  `actual` is the map key (the
octave-shifted sounding frequency), `base` the stored `baseFrequency`,
`gainTarget` the amplitude the voice's gain node is currently ramping to. -/
structure Voice where
  actual : ℚ
  base : ℚ
  isPrimary : Bool
  chordType : Option ChordType
  gainTarget : ℚ
deriving DecidableEq

/-- The mutable core state of `script.js`: `activeOscillators`, `heldNotes`,
`lastPlayedNote` and `octaveShift`. -/
structure EngineState where
  voices : List Voice
  held : List HeldNote
  lastPlayed : Option HeldNote
  shift : ℤ
deriving DecidableEq

/-- `OSC_GAIN = 0.15`, the fixed per-voice gain every new oscillator ramps to. -/
def OSC_GAIN : ℚ := 15/100

/-- `MAX_OCTAVE_SHIFT = 3`. -/
def MAX_OCTAVE_SHIFT : ℤ := 3

/-- `MIN_OCTAVE_SHIFT = -3`. -/
def MIN_OCTAVE_SHIFT : ℤ := -3

/-- The `NOTE_FREQUENCIES` table, in its source insertion order. -/
def NOTE_FREQUENCIES : List (String × ℚ) :=
  [("C", 26163/100), ("C#", 27718/100), ("D", 29366/100), ("D#", 31113/100),
   ("E", 32963/100), ("F", 34923/100), ("F#", 36999/100), ("G", 392),
   ("G#", 41530/100), ("A", 440), ("A#", 46616/100), ("B", 49388/100)]

/-- Scan of `Object.entries(NOTE_FREQUENCIES)` performed by
`getNoteFromFrequency`: first entry within `0.01` of the argument. -/
def findNote (frequency : ℚ) : List (String × ℚ) → Option String
  | [] => none
  | (noteName, noteFreq) :: rest =>
      if |noteFreq - frequency| < 1/100 then some noteName
      else findNote frequency rest

/-- `getNoteFromFrequency(frequency)`. -/
def getNoteFromFrequency (frequency : ℚ) : Option String :=
  findNote frequency NOTE_FREQUENCIES

/-- Key lookup in an association list, modelling `NOTE_FREQUENCIES[name]`. -/
def lookupIn (noteName : String) : List (String × ℚ) → Option ℚ
  | [] => none
  | (m, q) :: rest => if m = noteName then some q else lookupIn noteName rest

/-- `NOTE_FREQUENCIES[noteName]` as an optional value. -/
def lookupFreq (noteName : String) : Option ℚ :=
  lookupIn noteName NOTE_FREQUENCIES

/-- `NOTE_FREQUENCIES[noteName]`, defaulted, for call sites that always pass a
valid name. -/
def baseFreqOf (noteName : String) : ℚ :=
  (lookupFreq noteName).getD 0

/-- The chromatic `noteOrder` array used by `shiftNoteBySemitones` (written
as one array in the source; split here purely for line layout). -/
def noteOrder : List String :=
  ["C", "C#", "D", "D#", "E", "F"] ++ ["F#", "G", "G#", "A", "A#", "B"]

/-- JS `Array.prototype.indexOf`: index of the first occurrence, `-1` if absent. -/
def indexOfNote (noteName : String) : List String → ℤ
  | [] => -1
  | m :: rest =>
      if m = noteName then 0
      else
        let r := indexOfNote noteName rest
        if r = -1 then -1 else r + 1

/-- `shiftNoteBySemitones(noteName, semitones)`: index arithmetic modulo 12 on
`noteOrder` (the JS double-`%` idiom and Lean's `Int.emod` agree on the final
non-negative representative). -/
def shiftNoteBySemitones (noteName : String) (semitones : ℤ) : String :=
  let currentIndex := indexOfNote noteName noteOrder
  let newIndex := ((currentIndex + semitones) % 12 + 12) % 12
  noteOrder.getD newIndex.toNat ""

/-- The source's inline "major chord center" test (in
`setupPianoKeyEventListeners` and `updateActiveNotesHighlighting`): the minor
counterpart three semitones below exists in `NOTE_FREQUENCIES`. -/
def isMajorChordCenter (noteName : String) : Bool :=
  (lookupFreq (shiftNoteBySemitones noteName (-3))).isSome

/-- The `isPrimary` computation of the piano-key / keyboard handlers
(`setupPianoKeyEventListeners` mousedown, `keydown` in `setupEventHandlers`):
start from `true`, and when the note name resolves and either counterpart
exists, set it from `majorOnTop` and the major-chord-center test. -/
def pianoKeyIsPrimary (majorOnTop : Bool) (frequency : ℚ) : Bool :=
  match getNoteFromFrequency frequency with
  | none => true
  | some noteName =>
      let majorCounterpart := shiftNoteBySemitones noteName 3
      let minorCounterpart := shiftNoteBySemitones noteName (-3)
      if (lookupFreq majorCounterpart).isSome || (lookupFreq minorCounterpart).isSome then
        if majorOnTop then isMajorChordCenter noteName else !isMajorChordCenter noteName
      else true

/-- Registry lookup `activeOscillators[actualFrequency]`. -/
def lookupVoice (k : ℚ) : List Voice → Option Voice
  | [] => none
  | v :: rest => if v.actual = k then some v else lookupVoice k rest

/-- `delete activeOscillators[actualFrequency]` (first matching entry; the JS
object can hold at most one entry per key). -/
def removeVoice (k : ℚ) : List Voice → List Voice
  | [] => []
  | v :: rest => if v.actual = k then rest else v :: removeVoice k rest

/-- The `findIndex` + `splice(idx, 1)` idiom on `heldNotes`: remove the first
entry whose name matches. -/
def removeHeld (noteName : String) : List HeldNote → List HeldNote
  | [] => []
  | h :: rest => if h.name = noteName then rest else h :: removeHeld noteName rest

/-- The `heldNotes.find` call of `shiftActiveNotes`: the chord type of the
first wheel-sourced entry with the given name. -/
def findWheelType (noteName : String) : List HeldNote → Option ChordType
  | [] => none
  | HeldNote.plain _ :: rest => findWheelType noteName rest
  | HeldNote.wheel m t :: rest =>
      if m = noteName then some t else findWheelType noteName rest

/-- `calculateVolume()`: the shared target loudness as a function of the
live-voice count and `MASTER_GAIN`. -/
noncomputable def calculateVolume (activeCount : ℕ) (masterGain : ℝ) : ℝ :=
  if activeCount = 0 then masterGain
  else if activeCount = 1 then masterGain
  else max 0.05 (masterGain / Real.sqrt activeCount)

/-- `stopNote(actualFrequency)`: no-op when absent; otherwise the voice is
removed from the registry immediately, the fade-out runs on the orphaned gain
node, and the held entry for the note of `baseFrequency || actualFrequency`
(JS falsy test: `0` falls back to the key) is spliced out.  `lastPlayedNote`
is never touched. -/
def stopNote (actualFrequency : ℚ) (s : EngineState) : EngineState :=
  match lookupVoice actualFrequency s.voices with
  | none => s
  | some v =>
      let voices' := removeVoice actualFrequency s.voices
      let frequencyToUnhighlight := if v.base = 0 then actualFrequency else v.base
      match getNoteFromFrequency frequencyToUnhighlight with
      | none => { s with voices := voices' }
      | some noteName => { s with voices := voices', held := removeHeld noteName s.held }

/-- `playNote(frequency, applyOctaveShift, isPrimary)`: octave-shift the
frequency, stop any existing voice at that key, register the new voice (gain
ramping to `OSC_GAIN`), and, only when the base frequency resolves to a note
name, re-engage the ledger entry and remember the note as last played. -/
def playNote (frequency : ℚ) (applyOctaveShift : Bool) (isPrimary : Bool)
    (s : EngineState) : EngineState :=
  let actualFrequency := if applyOctaveShift then frequency * 2 ^ s.shift else frequency
  let s1 := if (lookupVoice actualFrequency s.voices).isSome then stopNote actualFrequency s else s
  let voice : Voice := ⟨actualFrequency, frequency, isPrimary, none, OSC_GAIN⟩
  match getNoteFromFrequency frequency with
  | none => { s1 with voices := s1.voices ++ [voice] }
  | some noteName =>
      { s1 with voices := s1.voices ++ [voice],
                held := removeHeld noteName s1.held ++ [HeldNote.plain noteName],
                lastPlayed := some (HeldNote.plain noteName) }

/-- `playNoteFromWheel(frequency, noteName, type)`: like `playNote` but the
voice is created with `isPrimary: true` and the clicked chord type, and the
ledger/last-played update is unconditional and wheel-tagged. -/
def playNoteFromWheel (frequency : ℚ) (noteName : String) (chordType : ChordType)
    (s : EngineState) : EngineState :=
  let actualFrequency := frequency * 2 ^ s.shift
  let s1 := if (lookupVoice actualFrequency s.voices).isSome then stopNote actualFrequency s else s
  let voice : Voice := ⟨actualFrequency, frequency, true, some chordType, OSC_GAIN⟩
  { s1 with voices := s1.voices ++ [voice],
            held := removeHeld noteName s1.held ++ [HeldNote.wheel noteName chordType],
            lastPlayed := some (HeldNote.wheel noteName chordType) }

/-- A `forEach`/`stopNote` sweep over a captured list of voices, as performed
by `shiftActiveNotes` and the window-blur handler. -/
def stopAll (l : List Voice) (s : EngineState) : EngineState :=
  l.foldl (fun st v => stopNote v.actual st) s

/-- `shiftActiveNotes`: capture the live voices, stop them all, then restart
each one whose base frequency resolves — through `playNoteFromWheel` when the
(current) ledger still holds a wheel entry for the note, else through a plain
`playNote(baseFreq)` with default arguments. -/
def shiftActiveNotes (s : EngineState) : EngineState :=
  let activeNotes := s.voices
  let s1 := stopAll activeNotes s
  activeNotes.foldl (fun st v =>
    match getNoteFromFrequency v.base with
    | none => st
    | some noteName =>
        match findWheelType noteName st.held with
        | some t => playNoteFromWheel v.base noteName t st
        | none => playNote v.base true true st) s1

/-- The discrete external events the UI layer feeds into the core. -/
inductive Ev where
  | keyDown (frequency : ℚ) (isPrimary : Bool)
  | wheelDown (frequency : ℚ) (noteName : String) (chordType : ChordType)
  | noteOff (frequency : ℚ)
  | octaveDown
  | octaveUp
  | octaveReset
  | windowBlur

/-- One event step.  Octave requests are guarded exactly as in the source
(`octaveShift > MIN_OCTAVE_SHIFT`, `octaveShift < MAX_OCTAVE_SHIFT`); a
rejected request changes nothing.  The blur handler clears `heldNotes`
first and then stops every live voice; `lastPlayedNote` is deliberately
kept. -/
def step (s : EngineState) : Ev → EngineState
  | Ev.keyDown f p => playNote f true p s
  | Ev.wheelDown f n t => playNoteFromWheel f n t s
  | Ev.noteOff f => stopNote f s
  | Ev.octaveDown =>
      if MIN_OCTAVE_SHIFT < s.shift then shiftActiveNotes { s with shift := s.shift - 1 } else s
  | Ev.octaveUp =>
      if s.shift < MAX_OCTAVE_SHIFT then shiftActiveNotes { s with shift := s.shift + 1 } else s
  | Ev.octaveReset => shiftActiveNotes { s with shift := 0 }
  | Ev.windowBlur => stopAll s.voices { s with held := [] }

/-- The startup state: no voices, empty ledger, no last-played note,
`octaveShift = 0`. -/
def initialState : EngineState := ⟨[], [], none, 0⟩

/-- The state reached from startup by a sequence of UI events. -/
def run (evs : List Ev) : EngineState :=
  evs.foldl step initialState

/-- The keys of the voice registry. -/
def keysOf (l : List Voice) : List ℚ := l.map Voice.actual

/-- The pitch-class names of the ledger. -/
def namesOf (l : List HeldNote) : List String := l.map HeldNote.name

/-- Number of live voices registered at a given sounding frequency. -/
def countKey (k : ℚ) (l : List Voice) : ℕ :=
  (l.filter (fun v => decide (v.actual = k))).length

/-- A burst of simultaneous plain note-on calls (`playNote` with default
arguments), one per listed frequency. -/
def playMany (fs : List ℚ) (s : EngineState) : EngineState :=
  fs.foldl (fun st f => playNote f true true st) s

/-- The engine invariant: unique registry keys, unique ledger names, every
voice keyed by its base frequency times `2 ^ octaveShift` and ramping to the
fixed `OSC_GAIN`, and the octave shift within `[-3, 3]`. -/
def Inv (s : EngineState) : Prop :=
  (keysOf s.voices).Nodup ∧
  (namesOf s.held).Nodup ∧
  (∀ v ∈ s.voices, v.actual = v.base * 2 ^ s.shift ∧ v.gainTarget = OSC_GAIN) ∧
  (MIN_OCTAVE_SHIFT ≤ s.shift ∧ s.shift ≤ MAX_OCTAVE_SHIFT)

/-! ### Basic lemmas about the registry and ledger list operations -/

theorem lookupVoice_eq_none_iff {k : ℚ} {l : List Voice} :
    lookupVoice k l = none ↔ ∀ v ∈ l, v.actual ≠ k := by
  induction l with
  | nil => simp [lookupVoice]
  | cons v rest ih =>
    by_cases hv : v.actual = k
    · simp [lookupVoice, hv]
    · simp [lookupVoice, hv, ih]

theorem lookupVoice_eq_some {k : ℚ} {l : List Voice} {v : Voice}
    (h : lookupVoice k l = some v) : v ∈ l ∧ v.actual = k := by
  induction l with
  | nil => simp [lookupVoice] at h
  | cons w rest ih =>
    by_cases hw : w.actual = k
    · simp only [lookupVoice, if_pos hw] at h
      cases h
      exact ⟨List.mem_cons_self _ _, hw⟩
    · simp only [lookupVoice, if_neg hw] at h
      rcases ih h with ⟨h1, h2⟩
      exact ⟨List.mem_cons_of_mem _ h1, h2⟩

theorem removeVoice_sublist (k : ℚ) (l : List Voice) : List.Sublist (removeVoice k l) l := by
  induction l with
  | nil => simp [removeVoice]
  | cons v rest ih =>
    by_cases hv : v.actual = k
    · simpa [removeVoice, hv] using List.sublist_cons_self v rest
    · simpa [removeVoice, hv] using ih.cons₂ v

theorem mem_removeVoice {k : ℚ} {l : List Voice} {v : Voice}
    (h : v ∈ removeVoice k l) : v ∈ l :=
  (removeVoice_sublist k l).mem h

theorem removeVoice_of_lookup_none {k : ℚ} {l : List Voice}
    (h : lookupVoice k l = none) : removeVoice k l = l := by
  induction l with
  | nil => simp [removeVoice]
  | cons v rest ih =>
    by_cases hv : v.actual = k
    · simp [lookupVoice, hv] at h
    · simp only [lookupVoice, if_neg hv] at h
      simp [removeVoice, hv, ih h]

theorem not_mem_keys_removeVoice {k : ℚ} {l : List Voice}
    (hnd : (keysOf l).Nodup) : ∀ v ∈ removeVoice k l, v.actual ≠ k := by
  induction l with
  | nil => simp [removeVoice]
  | cons v rest ih =>
    simp only [keysOf, List.map_cons, List.nodup_cons] at hnd
    by_cases hv : v.actual = k
    · intro w hw
      simp only [removeVoice, if_pos hv] at hw
      intro hwk
      exact hnd.1 (hv ▸ hwk ▸ List.mem_map_of_mem Voice.actual hw)
    · intro w hw
      simp only [removeVoice, if_neg hv] at hw
      rcases List.mem_cons.mp hw with h | h
      · exact h ▸ hv
      · exact ih hnd.2 w h

theorem removeVoice_append_left {k : ℚ} {l₁ : List Voice}
    (h : ∀ v ∈ l₁, v.actual ≠ k) (l₂ : List Voice) :
    removeVoice k (l₁ ++ l₂) = l₁ ++ removeVoice k l₂ := by
  induction l₁ with
  | nil => simp
  | cons v rest ih =>
    have hv : v.actual ≠ k := h v (List.mem_cons_self _ _)
    simp only [List.cons_append, removeVoice, if_neg hv]
    exact congrArg (v :: ·) (ih (fun w hw => h w (List.mem_cons_of_mem _ hw)))

theorem lookupVoice_append_left {k : ℚ} {l₁ : List Voice}
    (h : ∀ v ∈ l₁, v.actual ≠ k) (l₂ : List Voice) :
    lookupVoice k (l₁ ++ l₂) = lookupVoice k l₂ := by
  induction l₁ with
  | nil => simp
  | cons v rest ih =>
    have hv : v.actual ≠ k := h v (List.mem_cons_self _ _)
    simp only [List.cons_append, lookupVoice, if_neg hv]
    exact ih (fun w hw => h w (List.mem_cons_of_mem _ hw))

theorem removeHeld_sublist (n : String) (l : List HeldNote) : List.Sublist (removeHeld n l) l := by
  induction l with
  | nil => simp [removeHeld]
  | cons h rest ih =>
    by_cases hn : h.name = n
    · simpa [removeHeld, hn] using List.sublist_cons_self h rest
    · simpa [removeHeld, hn] using ih.cons₂ h

theorem names_removeHeld_sublist (n : String) (l : List HeldNote) :
    List.Sublist (namesOf (removeHeld n l)) (namesOf l) :=
  (removeHeld_sublist n l).map HeldNote.name

theorem not_mem_names_removeHeld {n : String} {l : List HeldNote}
    (hnd : (namesOf l).Nodup) : ∀ h ∈ removeHeld n l, h.name ≠ n := by
  induction l with
  | nil => simp [removeHeld]
  | cons h rest ih =>
    simp only [namesOf, List.map_cons, List.nodup_cons] at hnd
    by_cases hn : h.name = n
    · intro w hw
      simp only [removeHeld, if_pos hn] at hw
      intro hwn
      exact hnd.1 (hn ▸ hwn ▸ List.mem_map_of_mem HeldNote.name hw)
    · intro w hw
      simp only [removeHeld, if_neg hn] at hw
      rcases List.mem_cons.mp hw with h' | h'
      · exact h' ▸ hn
      · exact ih hnd.2 w h'

theorem removeHeld_of_names_ne {n : String} {l : List HeldNote}
    (h : ∀ e ∈ l, e.name ≠ n) : removeHeld n l = l := by
  induction l with
  | nil => simp [removeHeld]
  | cons e rest ih =>
    have he : e.name ≠ n := h e (List.mem_cons_self _ _)
    simp only [removeHeld, if_neg he]
    rw [ih (fun w hw => h w (List.mem_cons_of_mem _ hw))]

theorem removeHeld_removeHeld {n : String} {l : List HeldNote}
    (hnd : (namesOf l).Nodup) : removeHeld n (removeHeld n l) = removeHeld n l :=
  removeHeld_of_names_ne (not_mem_names_removeHeld hnd)

/-! ### Effect lemmas for `stopNote` -/

theorem stopNote_voices (k : ℚ) (s : EngineState) :
    (stopNote k s).voices = removeVoice k s.voices := by
  unfold stopNote
  cases hl : lookupVoice k s.voices with
  | none => simp [removeVoice_of_lookup_none hl]
  | some v =>
    cases hg : getNoteFromFrequency (if v.base = 0 then k else v.base) <;> simp [hg]

theorem stopNote_shift (k : ℚ) (s : EngineState) : (stopNote k s).shift = s.shift := by
  unfold stopNote
  cases hl : lookupVoice k s.voices with
  | none => rfl
  | some v =>
    cases hg : getNoteFromFrequency (if v.base = 0 then k else v.base) <;> simp [hg]

theorem stopNote_lastPlayed (k : ℚ) (s : EngineState) :
    (stopNote k s).lastPlayed = s.lastPlayed := by
  unfold stopNote
  cases hl : lookupVoice k s.voices with
  | none => rfl
  | some v =>
    cases hg : getNoteFromFrequency (if v.base = 0 then k else v.base) <;> simp [hg]

theorem stopNote_held_sublist (k : ℚ) (s : EngineState) :
    List.Sublist ((stopNote k s).held) s.held := by
  unfold stopNote
  cases hl : lookupVoice k s.voices with
  | none => simp
  | some v =>
    cases hg : getNoteFromFrequency (if v.base = 0 then k else v.base) with
    | none => simp [hg]
    | some n => simpa [hg] using removeHeld_sublist n s.held

theorem stopNote_of_lookup_none {k : ℚ} {s : EngineState}
    (h : lookupVoice k s.voices = none) : stopNote k s = s := by
  unfold stopNote
  rw [h]

/-! ### Effect lemmas for `playNote` and `playNoteFromWheel` -/

theorem playNote_voices (f : ℚ) (b p : Bool) (s : EngineState) :
    (playNote f b p s).voices
      = removeVoice (if b then f * 2 ^ s.shift else f) s.voices
          ++ [⟨if b then f * 2 ^ s.shift else f, f, p, none, OSC_GAIN⟩] := by
  unfold playNote
  cases hl : lookupVoice (if b then f * 2 ^ s.shift else f) s.voices with
  | none =>
    cases hg : getNoteFromFrequency f <;>
      simp [hl, hg, removeVoice_of_lookup_none hl]
  | some v =>
    cases hg : getNoteFromFrequency f <;> simp [hl, hg, stopNote_voices]

theorem playNote_shift (f : ℚ) (b p : Bool) (s : EngineState) :
    (playNote f b p s).shift = s.shift := by
  unfold playNote
  cases hl : lookupVoice (if b then f * 2 ^ s.shift else f) s.voices with
  | none => cases hg : getNoteFromFrequency f <;> simp [hl, hg]
  | some v => cases hg : getNoteFromFrequency f <;> simp [hl, hg, stopNote_shift]

theorem playNote_lastPlayed_of_unknown {f : ℚ} (b p : Bool) (s : EngineState)
    (hg : getNoteFromFrequency f = none) :
    (playNote f b p s).lastPlayed = s.lastPlayed := by
  unfold playNote
  cases hl : lookupVoice (if b then f * 2 ^ s.shift else f) s.voices with
  | none => simp [hl, hg]
  | some v => simp [hl, hg, stopNote_lastPlayed]

theorem playNote_held_of_unknown {f : ℚ} (b p : Bool) (s : EngineState)
    (hg : getNoteFromFrequency f = none) :
    (playNote f b p s).held
      = (if (lookupVoice (if b then f * 2 ^ s.shift else f) s.voices).isSome
         then stopNote (if b then f * 2 ^ s.shift else f) s else s).held := by
  unfold playNote
  cases hl : lookupVoice (if b then f * 2 ^ s.shift else f) s.voices with
  | none => simp [hl, hg]
  | some v => simp [hl, hg]

theorem playNote_names_nodup {s : EngineState} (f : ℚ) (b p : Bool)
    (hn : (namesOf s.held).Nodup) : (namesOf (playNote f b p s).held).Nodup := by
  have hsub : ∀ k : ℚ, (namesOf (stopNote k s).held).Nodup := fun k =>
    hn.sublist ((stopNote_held_sublist k s).map HeldNote.name)
  unfold playNote
  cases hl : lookupVoice (if b then f * 2 ^ s.shift else f) s.voices with
  | none =>
    cases hg : getNoteFromFrequency f with
    | none => simpa [hl, hg] using hn
    | some n =>
      have h1 := not_mem_names_removeHeld (n := n) hn
      simp only [hl, hg, Option.isSome_none, Bool.false_eq_true, if_false]
      simp only [namesOf, List.map_append, List.map_cons, List.map_nil]
      refine List.Nodup.append ?_ (by simp) ?_
      · exact hn.sublist (names_removeHeld_sublist n s.held)
      · intro m hm hm'
        simp only [List.mem_singleton] at hm'
        subst hm'
        simp only [namesOf, List.mem_map] at hm
        rcases hm with ⟨e, he, rfl⟩
        exact h1 e he rfl
  | some v =>
    cases hg : getNoteFromFrequency f with
    | none => simpa [hl, hg] using hsub _
    | some n =>
      have h1 := not_mem_names_removeHeld (n := n) (hsub (if b then f * 2 ^ s.shift else f))
      simp only [hl, hg, Option.isSome_some, if_true]
      simp only [namesOf, List.map_append, List.map_cons, List.map_nil]
      refine List.Nodup.append ?_ (by simp) ?_
      · exact (hsub _).sublist (names_removeHeld_sublist n _)
      · intro m hm hm'
        simp only [List.mem_singleton] at hm'
        subst hm'
        simp only [namesOf, List.mem_map] at hm
        rcases hm with ⟨e, he, rfl⟩
        exact h1 e he rfl

theorem playNoteFromWheel_voices (f : ℚ) (n : String) (t : ChordType) (s : EngineState) :
    (playNoteFromWheel f n t s).voices
      = removeVoice (f * 2 ^ s.shift) s.voices
          ++ [⟨f * 2 ^ s.shift, f, true, some t, OSC_GAIN⟩] := by
  unfold playNoteFromWheel
  cases hl : lookupVoice (f * 2 ^ s.shift) s.voices with
  | none => simp [hl, removeVoice_of_lookup_none hl]
  | some v => simp [hl, stopNote_voices]

theorem playNoteFromWheel_shift (f : ℚ) (n : String) (t : ChordType) (s : EngineState) :
    (playNoteFromWheel f n t s).shift = s.shift := by
  unfold playNoteFromWheel
  cases hl : lookupVoice (f * 2 ^ s.shift) s.voices with
  | none => simp [hl]
  | some v => simp [hl, stopNote_shift]

theorem playNoteFromWheel_held (f : ℚ) (n : String) (t : ChordType) (s : EngineState) :
    (playNoteFromWheel f n t s).held
      = removeHeld n (if (lookupVoice (f * 2 ^ s.shift) s.voices).isSome
          then stopNote (f * 2 ^ s.shift) s else s).held ++ [HeldNote.wheel n t] := by
  unfold playNoteFromWheel
  cases hl : lookupVoice (f * 2 ^ s.shift) s.voices with
  | none => simp [hl]
  | some v => simp [hl]

theorem playNoteFromWheel_names_nodup {s : EngineState} (f : ℚ) (n : String) (t : ChordType)
    (hn : (namesOf s.held).Nodup) : (namesOf (playNoteFromWheel f n t s).held).Nodup := by
  have hs1 : (namesOf (if (lookupVoice (f * 2 ^ s.shift) s.voices).isSome
      then stopNote (f * 2 ^ s.shift) s else s).held).Nodup := by
    cases hl : (lookupVoice (f * 2 ^ s.shift) s.voices).isSome
    · simpa [hl] using hn
    · simpa [hl] using hn.sublist ((stopNote_held_sublist _ s).map HeldNote.name)
  have h1 := not_mem_names_removeHeld (n := n) hs1
  rw [playNoteFromWheel_held]
  simp only [namesOf, List.map_append, List.map_cons, List.map_nil]
  refine List.Nodup.append ?_ (by simp) ?_
  · exact hs1.sublist (names_removeHeld_sublist n _)
  · intro m hm hm'
    simp only [List.mem_singleton] at hm'
    subst hm'
    simp only [namesOf, List.mem_map] at hm
    rcases hm with ⟨e, he, rfl⟩
    exact h1 e he rfl

/-! ### Preservation of the engine invariant -/

theorem nodup_keys_append_singleton {l : List Voice} {v : Voice}
    (h1 : (keysOf l).Nodup) (h2 : ∀ w ∈ l, w.actual ≠ v.actual) :
    (keysOf (l ++ [v])).Nodup := by
  simp only [keysOf, List.map_append, List.map_cons, List.map_nil]
  refine List.Nodup.append h1 (by simp) ?_
  intro m hm hm'
  simp only [List.mem_singleton] at hm'
  subst hm'
  simp only [List.mem_map] at hm
  rcases hm with ⟨w, hw, hwa⟩
  exact h2 w hw hwa

theorem inv_playNote {s : EngineState} (f : ℚ) (p : Bool) (h : Inv s) :
    Inv (playNote f true p s) := by
  obtain ⟨hk, hn, hfg, hr⟩ := h
  have hvv := playNote_voices f true p s
  have hss := playNote_shift f true p s
  simp only [if_true] at hvv
  refine ⟨?_, playNote_names_nodup f true p hn, ?_, ?_⟩
  · rw [hvv]
    refine nodup_keys_append_singleton ?_ ?_
    · exact hk.sublist ((removeVoice_sublist _ _).map Voice.actual)
    · exact not_mem_keys_removeVoice hk
  · intro v hv
    rw [hvv] at hv
    rcases List.mem_append.mp hv with hv | hv
    · rcases hfg v (mem_removeVoice hv) with ⟨h1, h2⟩
      exact ⟨by rw [hss]; exact h1, h2⟩
    · simp only [List.mem_singleton] at hv
      subst hv
      exact ⟨by rw [hss], rfl⟩
  · rw [hss]
    exact hr

theorem inv_playNoteFromWheel {s : EngineState} (f : ℚ) (n : String) (t : ChordType)
    (h : Inv s) : Inv (playNoteFromWheel f n t s) := by
  obtain ⟨hk, hn, hfg, hr⟩ := h
  have hvv := playNoteFromWheel_voices f n t s
  have hss := playNoteFromWheel_shift f n t s
  refine ⟨?_, playNoteFromWheel_names_nodup f n t hn, ?_, ?_⟩
  · rw [hvv]
    refine nodup_keys_append_singleton ?_ ?_
    · exact hk.sublist ((removeVoice_sublist _ _).map Voice.actual)
    · exact not_mem_keys_removeVoice hk
  · intro v hv
    rw [hvv] at hv
    rcases List.mem_append.mp hv with hv | hv
    · rcases hfg v (mem_removeVoice hv) with ⟨h1, h2⟩
      exact ⟨by rw [hss]; exact h1, h2⟩
    · simp only [List.mem_singleton] at hv
      subst hv
      exact ⟨by rw [hss], rfl⟩
  · rw [hss]
    exact hr

theorem inv_stopNote {s : EngineState} (k : ℚ) (h : Inv s) : Inv (stopNote k s) := by
  obtain ⟨hk, hn, hfg, hr⟩ := h
  refine ⟨?_, ?_, ?_, ?_⟩
  · rw [stopNote_voices]
    exact hk.sublist ((removeVoice_sublist _ _).map Voice.actual)
  · exact hn.sublist ((stopNote_held_sublist k s).map HeldNote.name)
  · intro v hv
    rw [stopNote_voices] at hv
    rcases hfg v (mem_removeVoice hv) with ⟨h1, h2⟩
    exact ⟨by rw [stopNote_shift]; exact h1, h2⟩
  · rw [stopNote_shift]
    exact hr

/-! ### The stop-all sweep and `shiftActiveNotes` -/

theorem stopAll_cons (v : Voice) (l : List Voice) (s : EngineState) :
    stopAll (v :: l) s = stopAll l (stopNote v.actual s) := rfl

theorem stopAll_shift (l : List Voice) : ∀ s : EngineState, (stopAll l s).shift = s.shift := by
  induction l with
  | nil => intro s; rfl
  | cons v rest ih =>
    intro s
    rw [stopAll_cons, ih, stopNote_shift]

theorem stopAll_lastPlayed (l : List Voice) :
    ∀ s : EngineState, (stopAll l s).lastPlayed = s.lastPlayed := by
  induction l with
  | nil => intro s; rfl
  | cons v rest ih =>
    intro s
    rw [stopAll_cons, ih, stopNote_lastPlayed]

theorem stopAll_held_sublist (l : List Voice) :
    ∀ s : EngineState, List.Sublist (stopAll l s).held s.held := by
  induction l with
  | nil => intro s; exact List.Sublist.refl _
  | cons v rest ih =>
    intro s
    exact (ih (stopNote v.actual s)).trans (stopNote_held_sublist _ s)

theorem stopAll_voices_of_eq (l : List Voice) :
    ∀ s : EngineState, s.voices = l → (stopAll l s).voices = [] := by
  induction l with
  | nil => intro s h; simpa [stopAll] using h
  | cons v rest ih =>
    intro s h
    rw [stopAll_cons]
    refine ih (stopNote v.actual s) ?_
    rw [stopNote_voices, h]
    simp [removeVoice]

theorem inv_stopAll (l : List Voice) : ∀ s : EngineState, Inv s → Inv (stopAll l s) := by
  induction l with
  | nil => intro s h; exact h
  | cons v rest ih =>
    intro s h
    rw [stopAll_cons]
    exact ih _ (inv_stopNote _ h)

theorem inv_restart (l : List Voice) :
    ∀ s : EngineState, Inv s →
      Inv (l.foldl (fun st v =>
        match getNoteFromFrequency v.base with
        | none => st
        | some noteName =>
            match findWheelType noteName st.held with
            | some t => playNoteFromWheel v.base noteName t st
            | none => playNote v.base true true st) s) := by
  induction l with
  | nil => intro s h; exact h
  | cons v rest ih =>
    intro s h
    rw [List.foldl_cons]
    refine ih _ ?_
    cases hg : getNoteFromFrequency v.base with
    | none => simpa [hg] using h
    | some n =>
      cases hw : findWheelType n s.held with
      | none => simpa [hg, hw] using inv_playNote _ _ h
      | some t => simpa [hg, hw] using inv_playNoteFromWheel _ _ _ h

theorem inv_shiftActiveNotes {s : EngineState}
    (hn : (namesOf s.held).Nodup)
    (hr : MIN_OCTAVE_SHIFT ≤ s.shift ∧ s.shift ≤ MAX_OCTAVE_SHIFT) :
    Inv (shiftActiveNotes s) := by
  unfold shiftActiveNotes
  refine inv_restart s.voices (stopAll s.voices s) ⟨?_, ?_, ?_, ?_⟩
  · rw [stopAll_voices_of_eq s.voices s rfl]
    simp [keysOf]
  · exact hn.sublist ((stopAll_held_sublist s.voices s).map HeldNote.name)
  · intro v hv
    rw [stopAll_voices_of_eq s.voices s rfl] at hv
    simp at hv
  · rw [stopAll_shift]
    exact hr

theorem inv_step {s : EngineState} (h : Inv s) : ∀ e : Ev, Inv (step s e) := by
  intro e
  obtain ⟨hk, hn, hfg, hr⟩ := h
  cases e with
  | keyDown f p => exact inv_playNote f p ⟨hk, hn, hfg, hr⟩
  | wheelDown f n t => exact inv_playNoteFromWheel f n t ⟨hk, hn, hfg, hr⟩
  | noteOff f => exact inv_stopNote f ⟨hk, hn, hfg, hr⟩
  | octaveDown =>
    unfold step
    by_cases hg : MIN_OCTAVE_SHIFT < s.shift
    · rw [if_pos hg]
      refine inv_shiftActiveNotes hn ?_
      simp only [MIN_OCTAVE_SHIFT, MAX_OCTAVE_SHIFT] at hg hr ⊢
      omega
    · rw [if_neg hg]
      exact ⟨hk, hn, hfg, hr⟩
  | octaveUp =>
    unfold step
    by_cases hg : s.shift < MAX_OCTAVE_SHIFT
    · rw [if_pos hg]
      refine inv_shiftActiveNotes hn ?_
      simp only [MIN_OCTAVE_SHIFT, MAX_OCTAVE_SHIFT] at hg hr ⊢
      omega
    · rw [if_neg hg]
      exact ⟨hk, hn, hfg, hr⟩
  | octaveReset =>
    refine inv_shiftActiveNotes hn ?_
    simp [MIN_OCTAVE_SHIFT, MAX_OCTAVE_SHIFT]
  | windowBlur =>
    refine ⟨?_, ?_, ?_, ?_⟩
    · rw [show (step s Ev.windowBlur).voices = [] from
        stopAll_voices_of_eq s.voices { s with held := [] } rfl]
      simp [keysOf]
    · have h1 := stopAll_held_sublist s.voices { s with held := [] }
      simp only [List.sublist_nil] at h1
      rw [show (step s Ev.windowBlur).held = (stopAll s.voices { s with held := [] }).held from rfl,
        h1]
      simp [namesOf]
    · intro v hv
      rw [show (step s Ev.windowBlur).voices = [] from
        stopAll_voices_of_eq s.voices { s with held := [] } rfl] at hv
      simp at hv
    · rw [show (step s Ev.windowBlur).shift = (stopAll s.voices { s with held := [] }).shift
        from rfl, stopAll_shift]
      exact hr

theorem inv_initialState : Inv initialState := by
  refine ⟨?_, ?_, ?_, ?_⟩ <;> simp [initialState, keysOf, namesOf, Inv, MIN_OCTAVE_SHIFT,
    MAX_OCTAVE_SHIFT]

theorem inv_foldl (evs : List Ev) : ∀ s : EngineState, Inv s → Inv (evs.foldl step s) := by
  induction evs with
  | nil => intro s h; exact h
  | cons e rest ih =>
    intro s h
    rw [List.foldl_cons]
    exact ih _ (inv_step h e)

theorem inv_run (evs : List Ev) : Inv (run evs) :=
  inv_foldl evs initialState inv_initialState

/-! ### Claim theorems -/

/-- C5: For every state with any number of live voices, the global
all-notes-off event (panic / window blur) leaves zero live voices and an empty
held-notes ledger, while the remembered last-played-note display fallback is
left unchanged. -/
theorem c5_blur_clears_voices_and_ledger_keeps_fallback (s : EngineState) :
    (step s Ev.windowBlur).voices = [] ∧
    (step s Ev.windowBlur).held = [] ∧
    (step s Ev.windowBlur).lastPlayed = s.lastPlayed := by
  refine ⟨stopAll_voices_of_eq s.voices { s with held := [] } rfl, ?_, ?_⟩
  · have h1 := stopAll_held_sublist s.voices { s with held := [] }
    simpa using List.sublist_nil.mp h1
  · exact stopAll_lastPlayed s.voices { s with held := [] }

/-- C9: For every frequency with no live voice registered at it, `stopNote` is
a silent no-op: the whole engine state (voice registry, held-notes ledger and
last-played-note fallback) is unchanged. -/
theorem c9_stopNote_unknown_is_noop (f : ℚ) (s : EngineState)
    (h : lookupVoice f s.voices = none) : stopNote f s = s :=
  stopNote_of_lookup_none h

theorem c9_stopNote_unknown_is_noop_witness :
    lookupVoice 440 initialState.voices = none ∧ stopNote 440 initialState = initialState :=
  ⟨rfl, c9_stopNote_unknown_is_noop 440 initialState rfl⟩

/-- C7: `playNote` is an idempotent re-trigger: in any reachable state the
registry has pairwise distinct sounding-frequency keys (at most one voice per
frequency), a second identical `playNote` leaves the registry exactly as after
the first, and after a `playNote` exactly one live voice is registered at the
note's sounding frequency. -/
theorem c7_noteOn_idempotent_retrigger :
    (∀ evs : List Ev, (keysOf (run evs).voices).Nodup) ∧
    (∀ (evs : List Ev) (f : ℚ) (p : Bool),
      (playNote f true p (playNote f true p (run evs))).voices
          = (playNote f true p (run evs)).voices ∧
      countKey (f * 2 ^ (run evs).shift) (playNote f true p (run evs)).voices = 1) := by
  constructor
  · intro evs
    exact (inv_run evs).1
  · intro evs f p
    have hk : (keysOf (run evs).voices).Nodup := (inv_run evs).1
    have h1 := playNote_voices f true p (run evs)
    simp only [if_true] at h1
    have hXa := not_mem_keys_removeVoice (k := f * 2 ^ (run evs).shift) hk
    constructor
    · have h2 := playNote_voices f true p (playNote f true p (run evs))
      simp only [if_true, playNote_shift] at h2
      rw [h2, h1, removeVoice_append_left hXa]
      simp [removeVoice]
    · rw [h1]
      unfold countKey
      rw [List.filter_append]
      have hz : (removeVoice (f * 2 ^ (run evs).shift) (run evs).voices).filter
          (fun v => decide (v.actual = f * 2 ^ (run evs).shift)) = [] := by
        rw [List.filter_eq_nil]
        intro v hv
        simpa using hXa v hv
      rw [hz]
      simp

/-- C6: The octave shift always stays within `[-3, 3]`; every live voice's
sounding frequency is its base frequency times `2 ^ shift`; and an octave
request at the boundary is rejected with the whole state unchanged. -/
theorem c6_octave_shift_bounded_and_clamped :
    (∀ evs : List Ev,
      (MIN_OCTAVE_SHIFT ≤ (run evs).shift ∧ (run evs).shift ≤ MAX_OCTAVE_SHIFT) ∧
      (run evs).voices.map Voice.actual
          = (run evs).voices.map (fun v => v.base * 2 ^ (run evs).shift)) ∧
    (∀ s : EngineState,
      step ⟨s.voices, s.held, s.lastPlayed, MIN_OCTAVE_SHIFT⟩ Ev.octaveDown
        = ⟨s.voices, s.held, s.lastPlayed, MIN_OCTAVE_SHIFT⟩) ∧
    (∀ s : EngineState,
      step ⟨s.voices, s.held, s.lastPlayed, MAX_OCTAVE_SHIFT⟩ Ev.octaveUp
        = ⟨s.voices, s.held, s.lastPlayed, MAX_OCTAVE_SHIFT⟩) := by
  refine ⟨?_, ?_, ?_⟩
  · intro evs
    refine ⟨(inv_run evs).2.2.2, ?_⟩
    exact List.map_congr_left (fun v hv => ((inv_run evs).2.2.1 v hv).1)
  · intro s
    simp [step]
  · intro s
    simp [step]

/-- C1 (amended): the engine never rebalances live voices' gains on
noteOn/noteOff — `adjustActiveVolumes` has no caller — so in every reachable
state every live voice's scheduled gain target is the fixed per-voice
`OSC_GAIN`, not the shared `calculateVolume` target. -/
theorem c1_gains_stay_at_fixed_per_voice_level :
    ∀ evs : List Ev,
      (run evs).voices.map Voice.gainTarget
        = List.replicate (run evs).voices.length OSC_GAIN := by
  intro evs
  refine List.eq_replicate.mpr ⟨by simp, ?_⟩
  intro b hb
  simp only [List.mem_map] at hb
  rcases hb with ⟨v, hv, rfl⟩
  exact ((inv_run evs).2.2.1 v hv).2

theorem getNoteFromFrequency_zero : getNoteFromFrequency 0 = none := by
  with_unfolding_all decide

/-- C3: in every reachable state the held-notes ledger has at most one entry
per pitch class, and engaging a pitch class — through `playNote` or through
`playNoteFromWheel`, regardless of provenance — removes any prior entry for
that pitch class and appends a fresh entry at the tail. -/
theorem c3_ledger_dedup_most_recent_last :
    (∀ evs : List Ev, (namesOf (run evs).held).Nodup) ∧
    (∀ (evs : List Ev) (f : ℚ) (p : Bool) (n : String),
      getNoteFromFrequency f = some n →
      (playNote f true p (run evs)).held
          = removeHeld n (run evs).held ++ [HeldNote.plain n]) ∧
    (∀ (evs : List Ev) (f : ℚ) (n : String) (t : ChordType),
      getNoteFromFrequency f = some n →
      (playNoteFromWheel f n t (run evs)).held
          = removeHeld n (run evs).held ++ [HeldNote.wheel n t]) := by
  have key : ∀ (evs : List Ev) (f : ℚ) (n : String),
      getNoteFromFrequency f = some n →
      (lookupVoice (f * 2 ^ (run evs).shift) (run evs).voices).isSome = true →
      (stopNote (f * 2 ^ (run evs).shift) (run evs)).held
        = removeHeld n (run evs).held := by
    intro evs f n hg hl
    obtain ⟨hk, hn, hfg, hr⟩ := inv_run evs
    rw [Option.isSome_iff_exists] at hl
    obtain ⟨v, hv⟩ := hl
    have hva : v.actual = f * 2 ^ (run evs).shift := (lookupVoice_eq_some hv).2
    have hvb : v.base = f := by
      have h1 := (hfg v (lookupVoice_eq_some hv).1).1
      have h2 : v.base * 2 ^ (run evs).shift = f * 2 ^ (run evs).shift := by
        rw [← h1, hva]
      exact mul_right_cancel₀ (zpow_ne_zero (run evs).shift two_ne_zero) h2
    have hf0 : f ≠ 0 := by
      intro h0
      rw [h0, getNoteFromFrequency_zero] at hg
      cases hg
    unfold stopNote
    rw [hv]
    have hfu : (if v.base = 0 then f * 2 ^ (run evs).shift else v.base) = f := by
      rw [hvb, if_neg hf0]
    simp only [hfu, hg]
  refine ⟨fun evs => (inv_run evs).2.1, ?_, ?_⟩
  · intro evs f p n hg
    have hn : (namesOf (run evs).held).Nodup := (inv_run evs).2.1
    unfold playNote
    cases hl : lookupVoice (if true then f * 2 ^ (run evs).shift else f) (run evs).voices with
    | none =>
      simp only [if_true] at hl
      simp [hl, hg]
    | some v =>
      simp only [if_true] at hl
      have hstop := key evs f n hg (by rw [hl]; rfl)
      simp [hl, hg, hstop, removeHeld_removeHeld hn]
  · intro evs f n t hg
    have hn : (namesOf (run evs).held).Nodup := (inv_run evs).2.1
    rw [playNoteFromWheel_held]
    cases hl : lookupVoice (f * 2 ^ (run evs).shift) (run evs).voices with
    | none => simp [hl]
    | some v =>
      have hstop := key evs f n hg (by rw [hl]; rfl)
      simp [hl, hstop, removeHeld_removeHeld hn]

theorem c3_ledger_dedup_most_recent_last_witness :
    getNoteFromFrequency (26163/100) = some "C" ∧
    (playNote (26163/100) true true (run [])).held
        = removeHeld "C" (run []).held ++ [HeldNote.plain "C"] :=
  ⟨by with_unfolding_all decide,
   c3_ledger_dedup_most_recent_last.2.1 [] (26163/100) true "C"
     (by with_unfolding_all decide)⟩

theorem lookupIn_isSome_mem {n : String} :
    ∀ l : List (String × ℚ), (lookupIn n l).isSome = true → n ∈ l.map Prod.fst := by
  intro l
  induction l with
  | nil => simp [lookupIn]
  | cons c rest ih =>
    rcases c with ⟨m, q⟩
    by_cases hm : m = n
    · simp [lookupIn, hm]
    · intro h
      simp only [lookupIn, if_neg hm] at h
      simpa using Or.inr (by simpa using ih h)

theorem lookupIn_mem {n : String} {q : ℚ} :
    ∀ l : List (String × ℚ), lookupIn n l = some q → (n, q) ∈ l := by
  intro l
  induction l with
  | nil => simp [lookupIn]
  | cons c rest ih =>
    rcases c with ⟨m, r⟩
    by_cases hm : m = n
    · simp only [lookupIn, if_pos hm]
      intro h
      cases h
      simp [hm]
    · simp only [lookupIn, if_neg hm]
      intro h
      exact List.mem_cons_of_mem _ (ih h)

theorem mem_lookupIn_isSome {n : String} :
    ∀ l : List (String × ℚ), n ∈ l.map Prod.fst → (lookupIn n l).isSome = true := by
  intro l
  induction l with
  | nil => simp
  | cons c rest ih =>
    rcases c with ⟨m, r⟩
    by_cases hm : m = n
    · simp [lookupIn, hm]
    · intro h
      simp only [List.map_cons, List.mem_cons] at h
      rcases h with h | h
      · exact absurd h.symm hm
      · simpa [lookupIn, hm] using ih h

theorem snd_inj_of_values_nodup :
    ∀ l : List (String × ℚ), (l.map Prod.snd).Nodup →
      ∀ p ∈ l, ∀ q ∈ l, p.2 = q.2 → p = q := by
  intro l
  induction l with
  | nil => simp
  | cons c rest ih =>
    intro hnd p hp q hq hpq
    simp only [List.map_cons, List.nodup_cons] at hnd
    rcases List.mem_cons.mp hp with hp | hp <;> rcases List.mem_cons.mp hq with hq | hq
    · rw [hp, hq]
    · exfalso
      apply hnd.1
      rw [← hp, hpq]
      exact List.mem_map_of_mem Prod.snd hq
    · exfalso
      apply hnd.1
      rw [← hq, ← hpq]
      exact List.mem_map_of_mem Prod.snd hp
    · exact ih hnd.2 p hp q hq hpq

theorem NOTE_FREQUENCIES_values_nodup : (NOTE_FREQUENCIES.map Prod.snd).Nodup := by
  simp only [NOTE_FREQUENCIES, List.map_cons, List.map_nil, List.nodup_cons,
    List.mem_cons, List.not_mem_nil, List.nodup_nil, and_true, not_or]
  norm_num

theorem baseFreqOf_injOn_keys :
    ∀ a ∈ NOTE_FREQUENCIES.map Prod.fst, ∀ b ∈ NOTE_FREQUENCIES.map Prod.fst,
      baseFreqOf a = baseFreqOf b → a = b := by
  intro a ha b hb hEq
  obtain ⟨qa, hqa⟩ := Option.isSome_iff_exists.mp (mem_lookupIn_isSome NOTE_FREQUENCIES ha)
  obtain ⟨qb, hqb⟩ := Option.isSome_iff_exists.mp (mem_lookupIn_isSome NOTE_FREQUENCIES hb)
  have hga : baseFreqOf a = qa := by simp [baseFreqOf, lookupFreq, hqa]
  have hgb : baseFreqOf b = qb := by simp [baseFreqOf, lookupFreq, hqb]
  have hq : qa = qb := by rw [← hga, ← hgb, hEq]
  have h := snd_inj_of_values_nodup NOTE_FREQUENCIES NOTE_FREQUENCIES_values_nodup
    (a, qa) (lookupIn_mem NOTE_FREQUENCIES hqa)
    (b, qb) (lookupIn_mem NOTE_FREQUENCIES hqb) (by simpa using hq)
  exact congrArg Prod.fst h

theorem playMany_cons (f : ℚ) (fs : List ℚ) (s : EngineState) :
    playMany (f :: fs) s = playMany fs (playNote f true true s) := rfl

theorem playMany_voices_length (fs : List ℚ) :
    ∀ s : EngineState,
      (∀ f ∈ fs, lookupVoice (f * 2 ^ s.shift) s.voices = none) →
      (fs.map (fun f => f * 2 ^ s.shift)).Nodup →
      (playMany fs s).voices.length = s.voices.length + fs.length := by
  induction fs with
  | nil => intro s _ _; simp [playMany]
  | cons f rest ih =>
    intro s hfresh hnd
    have hl : lookupVoice (f * 2 ^ s.shift) s.voices = none :=
      hfresh f (List.mem_cons_self _ _)
    have h1 := playNote_voices f true true s
    simp only [if_true] at h1
    have hvoices : (playNote f true true s).voices
        = s.voices ++ [⟨f * 2 ^ s.shift, f, true, none, OSC_GAIN⟩] := by
      rw [h1, removeVoice_of_lookup_none hl]
    have hshift := playNote_shift f true true s
    simp only [List.map_cons, List.nodup_cons] at hnd
    rw [playMany_cons, ih (playNote f true true s) ?_ ?_]
    · rw [hvoices]
      simp only [List.length_append, List.length_cons, List.length_nil]
      omega
    · intro f' hf'
      rw [hshift, hvoices, lookupVoice_eq_none_iff]
      intro v hv
      rcases List.mem_append.mp hv with hv | hv
      · exact lookupVoice_eq_none_iff.mp (hfresh f' (List.mem_cons_of_mem _ hf')) v hv
      · simp only [List.mem_singleton] at hv
        subst hv
        simp only
        intro hEq
        exact hnd.1 (hEq ▸ List.mem_map_of_mem (fun f => f * 2 ^ s.shift) hf')
    · rw [hshift]
      exact hnd.2

/-- C4: N simultaneous plain note-ons on N distinct valid pitch classes leave
exactly N live voices, and the computed shared target loudness
(`calculateVolume`) equals the master volume for a single voice and
`max 0.05 (masterVolume / sqrt N)` for `N ≥ 2`. -/
theorem c4_polyphony_count_and_target (names : List String) (g : ℝ)
    (h1 : names.Nodup) (h2 : ∀ n ∈ names, (lookupFreq n).isSome = true)
    (h3 : 1 ≤ names.length) (h4 : names.length ≤ 12) :
    (playMany (names.map baseFreqOf) initialState).voices.length = names.length ∧
    (names.length = 1 →
      calculateVolume (playMany (names.map baseFreqOf) initialState).voices.length g = g) ∧
    (2 ≤ names.length →
      calculateVolume (playMany (names.map baseFreqOf) initialState).voices.length g
        = max 0.05 (g / Real.sqrt (names.length : ℝ))) := by
  have hinj := baseFreqOf_injOn_keys
  have hmem : ∀ n ∈ names, n ∈ NOTE_FREQUENCIES.map Prod.fst := fun n hn =>
    lookupIn_isSome_mem NOTE_FREQUENCIES (h2 n hn)
  have hfreqNodup : (names.map baseFreqOf).Nodup :=
    h1.map_on (fun a ha b hb hEq => hinj a (hmem a ha) b (hmem b hb) hEq)
  have hactualNodup :
      ((names.map baseFreqOf).map (fun f => f * 2 ^ initialState.shift)).Nodup :=
    hfreqNodup.map (mul_left_injective₀ (zpow_ne_zero initialState.shift two_ne_zero))
  have hcount : (playMany (names.map baseFreqOf) initialState).voices.length
      = names.length := by
    have h := playMany_voices_length (names.map baseFreqOf) initialState
      (fun f _ => rfl) hactualNodup
    simpa [initialState] using h
  refine ⟨hcount, ?_, ?_⟩
  · intro hone
    rw [hcount, hone]
    simp [calculateVolume]
  · intro htwo
    rw [hcount]
    have hne0 : names.length ≠ 0 := by omega
    have hne1 : names.length ≠ 1 := by omega
    simp [calculateVolume, hne0, hne1]

theorem c4_polyphony_count_and_target_witness :
    (["C", "G"] : List String).Nodup ∧
    (∀ n ∈ (["C", "G"] : List String), (lookupFreq n).isSome = true) ∧
    1 ≤ (["C", "G"] : List String).length ∧ (["C", "G"] : List String).length ≤ 12 ∧
    (playMany ((["C", "G"] : List String).map baseFreqOf) initialState).voices.length
      = (["C", "G"] : List String).length :=
  ⟨by with_unfolding_all decide, by with_unfolding_all decide,
   by with_unfolding_all decide, by with_unfolding_all decide,
   (c4_polyphony_count_and_target ["C", "G"] 0
      (by with_unfolding_all decide) (by with_unfolding_all decide)
      (by with_unfolding_all decide) (by with_unfolding_all decide)).1⟩

/-- C8: for plain note-ons the handlers derive `isPrimary` from `majorOnTop`
and the major-chord-center test — a major-chord-center note is primary exactly
when `majorOnTop` is set — and the derived flag is what the registered voice
stores; in particular a plain note-on for pitch class E (329.63 Hz) stores
`isPrimary = majorOnTop`. -/
theorem c8_isPrimary_derivation :
    (∀ (majorOnTop : Bool) (f : ℚ) (n : String),
      getNoteFromFrequency f = some n →
      isMajorChordCenter n = true →
      pianoKeyIsPrimary majorOnTop f = majorOnTop) ∧
    (∀ (majorOnTop : Bool) (evs : List Ev),
      lookupVoice ((32963/100) * 2 ^ (run evs).shift)
          ((playNote (32963/100) true (pianoKeyIsPrimary majorOnTop (32963/100))
            (run evs)).voices)
        = some ⟨(32963/100) * 2 ^ (run evs).shift, 32963/100, majorOnTop, none, OSC_GAIN⟩) ∧
    pianoKeyIsPrimary true (32963/100) = true ∧
    pianoKeyIsPrimary false (32963/100) = false := by
  have hE : ∀ majorOnTop : Bool,
      pianoKeyIsPrimary majorOnTop (32963/100) = majorOnTop := by
    intro majorOnTop
    cases majorOnTop <;> with_unfolding_all decide
  refine ⟨?_, ?_, hE true, hE false⟩
  · intro majorOnTop f n hget hcenter
    unfold pianoKeyIsPrimary
    rw [hget]
    have hc : (lookupFreq (shiftNoteBySemitones n (-3))).isSome = true := by
      unfold isMajorChordCenter at hcenter
      exact hcenter
    simp only [hc, Bool.or_true, if_true, hcenter]
    cases majorOnTop <;> rfl
  · intro majorOnTop evs
    have hk : (keysOf (run evs).voices).Nodup := (inv_run evs).1
    have h1 := playNote_voices (32963/100) true (pianoKeyIsPrimary majorOnTop (32963/100))
      (run evs)
    simp only [if_true] at h1
    rw [h1, hE, lookupVoice_append_left (not_mem_keys_removeVoice hk)]
    simp [lookupVoice]

theorem c8_isPrimary_derivation_witness :
    getNoteFromFrequency (32963/100) = some "E" ∧
    isMajorChordCenter "E" = true ∧
    pianoKeyIsPrimary true (32963/100) = true :=
  ⟨by with_unfolding_all decide, by with_unfolding_all decide,
   c8_isPrimary_derivation.1 true (32963/100) "E"
     (by with_unfolding_all decide) (by with_unfolding_all decide)⟩

theorem findNote_eq_none {f : ℚ} :
    ∀ l : List (String × ℚ), (∀ c ∈ l, ¬(|c.2 - f| < 1/100)) → findNote f l = none := by
  intro l
  induction l with
  | nil => intro _; rfl
  | cons c rest ih =>
    rcases c with ⟨m, q⟩
    intro h
    have hq : ¬(|q - f| < 1/100) := h (m, q) (List.mem_cons_self _ _)
    simp only [findNote, if_neg hq]
    exact ih (fun c hc => h c (List.mem_cons_of_mem _ hc))

/-- C10: a plain note-on whose frequency is not within 0.01 Hz of any of the
twelve canonical base frequencies still registers (and sounds) a voice at the
shifted frequency, but the held-notes ledger and the last-played-note fallback
are left unchanged. -/
theorem c10_unknown_frequency_sounds_but_not_displayed (evs : List Ev) (f : ℚ) (p : Bool)
    (h : ∀ c ∈ NOTE_FREQUENCIES, ¬(|c.2 - f| < 1/100)) :
    (playNote f true p (run evs)).voices
        = removeVoice (f * 2 ^ (run evs).shift) (run evs).voices
            ++ [⟨f * 2 ^ (run evs).shift, f, p, none, OSC_GAIN⟩] ∧
    (playNote f true p (run evs)).held = (run evs).held ∧
    (playNote f true p (run evs)).lastPlayed = (run evs).lastPlayed := by
  have hg : getNoteFromFrequency f = none := findNote_eq_none NOTE_FREQUENCIES h
  have hv := playNote_voices f true p (run evs)
  simp only [if_true] at hv
  refine ⟨hv, ?_, playNote_lastPlayed_of_unknown true p (run evs) hg⟩
  have hh := playNote_held_of_unknown true p (run evs) hg
  simp only [if_true] at hh
  rw [hh]
  cases hl : lookupVoice (f * 2 ^ (run evs).shift) (run evs).voices with
  | none => simp [hl]
  | some v =>
    simp only [hl, Option.isSome_some, if_true]
    obtain ⟨hk, hn, hfg, hr⟩ := inv_run evs
    have hva : v.actual = f * 2 ^ (run evs).shift := (lookupVoice_eq_some hl).2
    have hvb : v.base = f := by
      have h1 := (hfg v (lookupVoice_eq_some hl).1).1
      have h2 : v.base * 2 ^ (run evs).shift = f * 2 ^ (run evs).shift := by
        rw [← h1, hva]
      exact mul_right_cancel₀ (zpow_ne_zero (run evs).shift two_ne_zero) h2
    have hfu : getNoteFromFrequency (if v.base = 0 then f * 2 ^ (run evs).shift else v.base)
        = none := by
      by_cases h0 : v.base = 0
      · have hf0 : f = 0 := by rw [← hvb, h0]
        rw [if_pos h0, hf0, zero_mul]
        exact getNoteFromFrequency_zero
      · rw [if_neg h0, hvb]
        exact hg
    unfold stopNote
    rw [hl]
    simp only [hfu]

theorem c10_unknown_frequency_sounds_but_not_displayed_witness :
    (∀ c ∈ NOTE_FREQUENCIES, ¬(|c.2 - 1000| < 1/100)) ∧
    (playNote 1000 true true (run [])).held = (run []).held :=
  ⟨by with_unfolding_all decide,
   (c10_unknown_frequency_sounds_but_not_displayed [] 1000 true
     (by with_unfolding_all decide)).2.1⟩

theorem getNoteFromFrequency_C : getNoteFromFrequency (26163/100 : ℚ) = some "C" := by
  norm_num [getNoteFromFrequency, findNote, NOTE_FREQUENCIES, abs_lt]

theorem getNoteFromFrequency_D : getNoteFromFrequency (14683/50 : ℚ) = some "D" := by
  norm_num [getNoteFromFrequency, findNote, NOTE_FREQUENCIES, abs_lt]

theorem run_wheelDown_C :
    run [Ev.wheelDown (26163/100) "C" ChordType.major]
      = ⟨[⟨26163/100, 26163/100, true, some ChordType.major, OSC_GAIN⟩],
         [HeldNote.wheel "C" ChordType.major],
         some (HeldNote.wheel "C" ChordType.major), 0⟩ := by
  show playNoteFromWheel (26163/100) "C" ChordType.major initialState = _
  unfold playNoteFromWheel
  norm_num [initialState, lookupVoice, removeHeld]

theorem run_wheelDown_C_octaveUp :
    run [Ev.wheelDown (26163/100) "C" ChordType.major, Ev.octaveUp]
      = ⟨[⟨26163/100 * 2 ^ (1:ℤ), 26163/100, true, none, OSC_GAIN⟩],
         [HeldNote.plain "C"], some (HeldNote.plain "C"), 1⟩ := by
  have h1 : run [Ev.wheelDown (26163/100) "C" ChordType.major, Ev.octaveUp]
      = step (run [Ev.wheelDown (26163/100) "C" ChordType.major]) Ev.octaveUp := rfl
  rw [h1, run_wheelDown_C]
  simp only [step]
  rw [if_pos (show (0:ℤ) < MAX_OCTAVE_SHIFT by norm_num [MAX_OCTAVE_SHIFT])]
  simp only [show ((0:ℤ) + 1 = 1) by norm_num]
  unfold shiftActiveNotes
  have hstop :
      stopAll [⟨26163/100, 26163/100, true, some ChordType.major, OSC_GAIN⟩]
        ⟨[⟨26163/100, 26163/100, true, some ChordType.major, OSC_GAIN⟩],
         [HeldNote.wheel "C" ChordType.major], some (HeldNote.wheel "C" ChordType.major), 1⟩
      = ⟨[], [], some (HeldNote.wheel "C" ChordType.major), 1⟩ := by
    rw [stopAll_cons]
    unfold stopNote
    norm_num [lookupVoice, removeVoice, getNoteFromFrequency_C, removeHeld, HeldNote.name,
      stopAll]
  simp only [hstop]
  simp only [List.foldl_cons, List.foldl_nil]
  norm_num [getNoteFromFrequency_C, findWheelType]
  unfold playNote
  norm_num [lookupVoice, removeHeld, getNoteFromFrequency_C]

/-- C2 (code bug): `shift(+1)` while a wheel-triggered C-major voice at
261.63 Hz is the only sounding note does stop the old voice and re-trigger at
`261.63 * 2^1`, but the re-trigger goes through the plain `playNote` path —
the wheel ledger entry was already removed by `stopNote` before
`shiftActiveNotes` checks provenance — so the restarted voice carries no chord
type and the ledger entry degrades from `wheel C major` to plain `C`, contrary
to the claimed provenance preservation. -/
theorem c2_octave_shift_drops_wheel_provenance :
    (run [Ev.wheelDown (26163/100) "C" ChordType.major]).held
        = [HeldNote.wheel "C" ChordType.major] ∧
    (run [Ev.wheelDown (26163/100) "C" ChordType.major]).voices.map Voice.chordType
        = [some ChordType.major] ∧
    (run [Ev.wheelDown (26163/100) "C" ChordType.major, Ev.octaveUp]).shift = 1 ∧
    (run [Ev.wheelDown (26163/100) "C" ChordType.major, Ev.octaveUp]).voices
        = [⟨26163/100 * 2 ^ (1:ℤ), 26163/100, true, none, OSC_GAIN⟩] ∧
    (run [Ev.wheelDown (26163/100) "C" ChordType.major, Ev.octaveUp]).held
        = [HeldNote.plain "C"] := by
  refine ⟨?_, ?_, ?_, ?_, ?_⟩
  · rw [run_wheelDown_C]
  · rw [run_wheelDown_C]
    rfl
  · rw [run_wheelDown_C_octaveUp]
  · rw [run_wheelDown_C_octaveUp]
  · rw [run_wheelDown_C_octaveUp]

theorem play_C_then_D_voices :
    (playNote (29366/100) true true (playNote (26163/100) true true initialState)).voices
      = [⟨26163/100, 26163/100, true, none, OSC_GAIN⟩,
         ⟨29366/100, 29366/100, true, none, OSC_GAIN⟩] := by
  have h1 : playNote (26163/100) true true initialState
      = ⟨[⟨26163/100, 26163/100, true, none, OSC_GAIN⟩],
         [HeldNote.plain "C"], some (HeldNote.plain "C"), 0⟩ := by
    unfold playNote
    norm_num [initialState, lookupVoice, removeHeld, getNoteFromFrequency_C]
  rw [h1]
  unfold playNote
  norm_num [lookupVoice, removeHeld, getNoteFromFrequency_D]

/-- C1 (counterexample): after a second simultaneous note-on (D after C, with
the default master volume 0.7), the still-live C voice's scheduled gain
target is the fixed `OSC_GAIN = 0.15` and not the recomputed shared target
`calculateVolume 2 0.7 = max 0.05 (0.7 / sqrt 2)`, so noteOn does not ramp
live voices to the shared target as claimed. -/
theorem c1_counterexample_no_rebalance_on_noteOn :
    (lookupVoice (26163/100)
        (playNote (29366/100) true true
          (playNote (26163/100) true true initialState)).voices).map Voice.gainTarget
      = some OSC_GAIN ∧
    (playNote (29366/100) true true
        (playNote (26163/100) true true initialState)).voices.length = 2 ∧
    ((OSC_GAIN : ℚ) : ℝ) ≠ calculateVolume 2 (7/10) := by
  refine ⟨?_, ?_, ?_⟩
  · rw [play_C_then_D_voices]
    norm_num [lookupVoice]
  · rw [play_C_then_D_voices]
    rfl
  · have hcv : calculateVolume 2 (7/10) = max 0.05 ((7/10) / Real.sqrt 2) := by
      norm_num [calculateVolume]
    have hs2 : Real.sqrt 2 < 2 := by
      nlinarith [Real.sq_sqrt (show (0:ℝ) ≤ 2 by norm_num), Real.sqrt_nonneg 2]
    have hs0 : (0:ℝ) < Real.sqrt 2 := Real.sqrt_pos.mpr (by norm_num)
    have hdiv : (7/10 : ℝ) / 2 < (7/10) / Real.sqrt 2 :=
      div_lt_div_of_pos_left (by norm_num) hs0 hs2
    have hlt : ((OSC_GAIN : ℚ) : ℝ) < max 0.05 ((7/10) / Real.sqrt 2) := by
      have hO : ((OSC_GAIN : ℚ) : ℝ) = 15/100 := by norm_num [OSC_GAIN]
      rw [hO]
      exact lt_max_of_lt_right (by linarith)
    rw [hcv]
    exact ne_of_lt hlt

end DJKeyTool
